import Mathlib

/-!
Verification development for `CausalKinetiX/BSbasis.py`.

The module builds a cubic B-spline basis over a sorted 1-D knot sequence and
provides the value, derivative and roughness-penalty matrices.  We embed the
code shallowly over `ℚ` (exact arithmetic standing in for the floating point
of the source): the class `PP_Cubic` with its evaluation (`__call__`),
differentiation (`differentiate`) and penalty product-integration (`__mod__`)
methods, and the module-level builders `get_BSbasis`, `get_basis_matrix`,
`get_deriv_matrix`, `get_penalty_matrix`.
-/

/-- Cubic piecewise polynomial object (class `PP_Cubic`, BSbasis.py lines
31-45): an integer basis index `idx`, 5 knots delimiting 4 consecutive
intervals, and a 4×4 coefficient table `coefs[piece_id, term_order]` with
powers of the local variable in descending order. -/
structure PP_Cubic where
  idx : ℤ
  knots : Fin 5 → ℚ
  coefs : Fin 4 → Fin 4 → ℚ

/-- The sortedness invariant checked by the constructor's assertion
`(knots[:-1] > knots[1:]).sum() == 0` (line 42): adjacent knots are
non-decreasing. -/
def PP_Cubic.valid (p : PP_Cubic) : Prop :=
  ∀ i : Fin 4, p.knots i.castSucc ≤ p.knots i.succ

instance (p : PP_Cubic) : Decidable p.valid :=
  inferInstanceAs (Decidable (∀ i : Fin 4, p.knots i.castSucc ≤ p.knots i.succ))

/-- Total (out-of-range-guarded) access to the knot vector by a natural
index; in-range accesses agree with `p.knots`. -/
def kn (p : PP_Cubic) (i : ℕ) : ℚ :=
  if h : i < 5 then p.knots ⟨i, h⟩ else 0

/-- Total (out-of-range-guarded) access to the coefficient table by natural
indices; in-range accesses agree with `p.coefs`. -/
def coef (p : PP_Cubic) (i k : ℕ) : ℚ :=
  if h : i < 4 ∧ k < 4 then p.coefs ⟨i, h.1⟩ ⟨k, h.2⟩ else 0

/-- The validating constructor `PP_Cubic.__init__` (lines 38-45) as a
fallible function: it checks that `knots` has exactly 5 entries, that the
knots are sorted ascending (adjacent non-decreasing), and that `coefs` is a
4×4 table; on success the stored fields are exactly the arguments. -/
def PP_Cubic.construct (idx : ℤ) (knots : List ℚ) (coefs : List (List ℚ)) :
    Option PP_Cubic :=
  if h : knots.length = 5 ∧ List.Chain' (· ≤ ·) knots ∧
      coefs.length = 4 ∧ ∀ r ∈ coefs, r.length = 4 then
    some { idx := idx
           knots := fun j => knots.getD j.val 0
           coefs := fun i k => (coefs.getD i.val []).getD k.val 0 }
  else
    none

/-- Scalar evaluation of one piecewise polynomial (the inner `eval_PP` of
`PP_Cubic.__call__`, lines 53-62): zero outside `[knots[0], knots[4]]`,
otherwise the row of the interval the point falls in, evaluated as a cubic
in `(x - interval_start)`; the last two intervals are located through
`min(3, (knots <= x).sum() - 1)`. -/
def eval_PP (p : PP_Cubic) (x : ℚ) : ℚ :=
  if ¬(kn p 0 ≤ x ∧ x ≤ kn p 4) then 0
  else if kn p 0 ≤ x ∧ x ≤ kn p 1 then
    ∑ k : Fin 4, coef p 0 k.val * (x - kn p 0) ^ (3 - k.val)
  else if kn p 1 ≤ x ∧ x ≤ kn p 2 then
    ∑ k : Fin 4, coef p 1 k.val * (x - kn p 1) ^ (3 - k.val)
  else
    let n : ℕ :=
      min 3 ((Finset.univ.filter (fun j : Fin 5 => p.knots j ≤ x)).card - 1)
    ∑ k : Fin 4, coef p n k.val * (x - kn p n) ^ (3 - k.val)

/-- Vectorized evaluation `PP_Cubic.__call__` (line 63): one output per
input point (`np.vectorize(eval_PP)`). -/
def PP_call (p : PP_Cubic) (vec : List ℚ) : List ℚ :=
  vec.map (eval_PP p)

/-- Method `PP_Cubic.differentiate` (lines 108-113): a new object with the same
`idx` and `knots`, each coefficient row replaced by the descending-order
coefficients of its derivative, left-aligned zero-padding
(`out_coefs[i, 4-len(tmp_coef):] = tmp_coef`): row `[a, b, c, d]` becomes
`[0, 3a, 2b, c]` (``np.poly1d`` strips leading zeros, which only moves
zeros around and leaves these values unchanged). -/
def PP_Cubic.differentiate (p : PP_Cubic) : PP_Cubic :=
  { idx := p.idx
    knots := p.knots
    coefs := fun i k =>
      match k with
      | ⟨0, _⟩ => 0
      | ⟨m + 1, h⟩ => ((3 - m : ℕ) : ℚ) * p.coefs i ⟨m, by omega⟩ }

/-- Polynomial multiplication of the two length-2 second-derivative
coefficient slices as coefficient convolution (the helper `conv`,
line 79, applied to `coefs[:, 2:]` rows): descending coefficients
`(a, b) * (c, d) = (a*c, a*d + b*c, b*d)`. -/
def conv2 (a b : ℚ × ℚ) : ℚ × ℚ × ℚ :=
  (a.1 * b.1, a.1 * b.2 + a.2 * b.1, a.2 * b.2)

/-- Definite integral over `[0, L]` of the product row
`prod_coefs[i] = [0, c₁, c₂, c₃]` (descending powers), i.e.
`np.poly1d(prod_coefs[i]).integ()(L) - np.poly1d(prod_coefs[i]).integ()(0)`
(lines 102-105); the antiderivative at `0` is `0`. -/
def integRow (c : ℚ × ℚ × ℚ) (L : ℚ) : ℚ :=
  c.1 * L ^ 3 / 3 + c.2.1 * L ^ 2 / 2 + c.2.2 * L

/-- The product rows `prod_coefs` computed by `PP_Cubic.__mod__`
(lines 84-100) from the two twice-differentiated operands `P1`, `P2`:
three cases on the sign of `P1.idx - P2.idx` decide which rows of the two
coefficient tables are convolved together; rows outside the assigned slice
stay zero (`np.zeros([4, 4])`).  Only columns `2:` (the degree ≤ 1 part of
a twice-differentiated cubic) enter the convolution, and column 0 of every
product row is structurally zero. -/
def prodRows (P1 P2 : PP_Cubic) (i : ℕ) : ℚ × ℚ × ℚ :=
  if P1.idx < P2.idx then
    -- prod_coefs[d:, 1:] = conv(P1.coefs[d:, 2:], P2.coefs[:-d, 2:]),
    -- pairing P1 row i with P2 row i - d for i ≥ d, d = P2.idx - P1.idx
    if (P2.idx - P1.idx).toNat ≤ i then
      conv2 (coef P1 i 2, coef P1 i 3)
        (coef P2 (i - (P2.idx - P1.idx).toNat) 2,
         coef P2 (i - (P2.idx - P1.idx).toNat) 3)
    else (0, 0, 0)
  else if P1.idx = P2.idx then
    -- prod_coefs[:, 1:] = conv(P1.coefs[:, 2:], P2.coefs[:, 2:])
    conv2 (coef P1 i 2, coef P1 i 3) (coef P2 i 2, coef P2 i 3)
  else
    -- prod_coefs[:-d, 1:] = conv(P1.coefs[:-d, 2:], P2.coefs[d:, 2:]),
    -- pairing P1 row i with P2 row i + d for i + d < 4, d = P1.idx - P2.idx
    if i + (P1.idx - P2.idx).toNat < 4 then
      conv2 (coef P1 i 2, coef P1 i 3)
        (coef P2 (i + (P1.idx - P2.idx).toNat) 2,
         coef P2 (i + (P1.idx - P2.idx).toNat) 3)
    else (0, 0, 0)

/-- Method `PP_Cubic.__mod__` (lines 67-106), the roughness-penalty primitive
`Product-Integrate`: returns `0` at once when the index distance exceeds 3;
otherwise both operands are differentiated twice, the aligned
second-derivative rows are multiplied by convolution (`prodRows`) and each
product row is integrated over its interval length
`PP1.knots[i+1] - PP1.knots[i]` and the results summed. -/
def prodIntegrate (PP1 PP2 : PP_Cubic) : ℚ :=
  if 3 < (PP1.idx - PP2.idx).natAbs then 0
  else
    ∑ i ∈ Finset.range 4,
      integRow
        (prodRows (PP1.differentiate.differentiate)
          (PP2.differentiate.differentiate) i)
        (kn (PP1.differentiate.differentiate) (i + 1) -
         kn (PP1.differentiate.differentiate) i)

/-- Ascending-order coefficients `c₀ + c₁ x + c₂ x² + c₃ x³` of a
polynomial of degree at most 3. -/
def Poly4 : Type := Fin 4 → ℚ

/-- The constant polynomial. -/
def pconst (c : ℚ) : Poly4 := ![c, 0, 0, 0]

/-- Pointwise sum of polynomials. -/
def padd (p q : Poly4) : Poly4 := fun k => p k + q k

/-- Multiplication by the linear factor `a + b·x` (the degree-3 slot of the
input is zero in every use below, so no truncation occurs). -/
def pmulLin (a b : ℚ) (p : Poly4) : Poly4 :=
  ![a * p 0, a * p 1 + b * p 0, a * p 2 + b * p 1, a * p 3 + b * p 2]

/-- Modelled from the spec: the closed-form derivation of a B-spline basis
function is delegated by `get_BSbasis` to
`scipy.interpolate.BSpline.basis_element` / `PPoly.from_spline`, which are
not part of this repository.  Following §4.2 ("derive, in closed form, the
unique cubic B-spline basis function supported on that window") and the
edge-case policy of §4.2/§8 (zero-length intervals are tolerated: "the
underlying derivation naturally produces zero contributions from degenerate
intervals"), we use the Cox–de Boor recursion, restricted to the knot
interval `(t_j, t_{j+1})`, with a term dropped (contributing `0`) whenever
its denominator `t_{i+k} - t_i` vanishes — the standard B-spline
convention.  `coxDB t k i j` is the polynomial giving `B_{i,k}` on interval
`j` of the 5-knot window, in the global variable. -/
def coxDB (t : ℕ → ℚ) (k : ℕ) (i j : ℕ) : Poly4 :=
  match k with
  | 0 => pconst (if i = j then 1 else 0)
  | k + 1 =>
      padd
        (if t (i + k + 1) = t i then pconst 0
         else pmulLin (-(t i) / (t (i + k + 1) - t i))
           (1 / (t (i + k + 1) - t i)) (coxDB t k i j))
        (if t (i + k + 2) = t (i + 1) then pconst 0
         else pmulLin (t (i + k + 2) / (t (i + k + 2) - t (i + 1)))
           (-1 / (t (i + k + 2) - t (i + 1))) (coxDB t k (i + 1) j))

/-- Coefficients of `p(a + u)` as a polynomial in `u` (Taylor shift by `a`),
used to re-express each interval polynomial in the local variable
`x - interval_start`. -/
def shiftPoly (c : Poly4) (a : ℚ) : Poly4 :=
  ![c 0 + c 1 * a + c 2 * a ^ 2 + c 3 * a ^ 3,
    c 1 + 2 * c 2 * a + 3 * c 3 * a ^ 2,
    c 2 + 3 * c 3 * a,
    c 3]

/-- Modelled from the spec (see `coxDB`): the 4×4 descending-order
per-interval coefficient table of the cubic B-spline basis function on the
5-knot window `w` — the value `Bbasis.c.T[3:7]` that `get_BSbasis` obtains
from scipy (lines 136-139). -/
def deriveCoefs (w : Fin 5 → ℚ) : Fin 4 → Fin 4 → ℚ :=
  fun j k =>
    shiftPoly
      (coxDB (fun m => if h : m < 5 then w ⟨m, h⟩ else 0) 3 0 j.val)
      (w j.castSucc)
      ⟨3 - k.val, by omega⟩

/-- The padded knot sequence
`np.concatenate([[data[0]]*3, data, [data[-1]]*3])` (line 133). -/
def pad3 (data : List ℚ) : List ℚ :=
  List.replicate 3 data.headI ++ data ++ List.replicate 3 (data.getLastD 0)

/-- Function `get_BSbasis` (lines 116-140): pad the data, then build
`len(data) - 2 + 4` basis functions, the `i`-th with index `i`, knot window
`data_padded[i:i+5]` and the coefficient table derived for that window. -/
def get_BSbasis (data : List ℚ) : List PP_Cubic :=
  (List.range (data.length - 2 + 4)).map fun i : ℕ =>
    { idx := (i : ℤ)
      knots := fun j => (pad3 data).getD (i + j.val) 0
      coefs := deriveCoefs fun j => (pad3 data).getD (i + j.val) 0 }

/-- Function `get_basis_matrix` (lines 143-144): the value matrix, one row per data
point, one column per basis function (`np.array([b(data) for b in BB]).T`,
with the transpose fused into the row-per-point construction). -/
def get_basis_matrix (data : List ℚ) (BSbasis : List PP_Cubic) :
    List (List ℚ) :=
  data.map fun x => BSbasis.map fun b => eval_PP b x

/-- Function `get_deriv_matrix` (lines 147-151): differentiate every basis function
once, then assemble the value matrix of the differentiated functions. -/
def get_deriv_matrix (data : List ℚ) (BSbasis : List PP_Cubic) :
    List (List ℚ) :=
  let BSderiv := BSbasis.map fun b => b.differentiate
  data.map fun x => BSderiv.map fun b => eval_PP b x

/-- Function `get_penalty_matrix` (lines 154-156): the broadcast `BSbasis % BSbasis.T`
has entry `(i, j)` equal to `BSbasis[i] % BSbasis[j]`. -/
def get_penalty_matrix (BSbasis : List PP_Cubic) : List (List ℚ) :=
  BSbasis.map fun bi => BSbasis.map fun bj => prodIntegrate bi bj

/-- Entry `(i, j)` of a list-of-rows matrix. -/
def entry (m : List (List ℚ)) (i j : ℕ) : ℚ :=
  (m.getD i []).getD j 0

/-- A throwaway default element for list access. -/
def PP0 : PP_Cubic :=
  { idx := 0, knots := fun _ => 0, coefs := fun _ _ => 0 }

/-- A concrete family of valid piecewise polynomials whose knots lie on the
integer grid shifted by the index, used to instantiate hypotheses. -/
def samplePP (n : ℤ) : PP_Cubic :=
  { idx := n
    knots := fun j => ((n + j.val : ℤ) : ℚ)
    coefs := fun i k => (i.val : ℚ) + 2 * k.val + 1 }

/-- Dynamic model of the run-time shapes a caller can pass to
`get_BSbasis`: a 1-D numpy array, a 2-D numpy array, or a plain Python
list of numbers. -/
inductive PyInput where
  | ndarray1 : List ℚ → PyInput
  | ndarray2 : List (List ℚ) → PyInput
  | pylist : List ℚ → PyInput

/-- Whether the value is a numpy ndarray (`type(data) == np.ndarray`),
regardless of its dimensionality. -/
def PyInput.isNdarray : PyInput → Bool
  | ndarray1 _ => true
  | ndarray2 _ => true
  | pylist _ => false

/-- Whether the value is a 1-D numeric sequence (the condition named by the
spec). -/
def PyInput.is1D : PyInput → Bool
  | ndarray1 _ => true
  | ndarray2 _ => false
  | pylist _ => true

/-- The input validation `get_BSbasis` performs (line 132,
`assert(type(data) == np.ndarray)`): `true` means the assert passes and the
input is processed, `false` means an `AssertionError` (validation error) is
raised.  It is the only validation in the function; everything after it is
the padding and the per-window basis derivation. -/
def get_BSbasis_validate (v : PyInput) : Bool :=
  v.isNdarray

/-- The pathological repeated-value input named by the spec. -/
def pathData : List ℚ := [0, 0, 0, 1, 1, 1]

/-! ## Helper lemmas -/

lemma differentiate_idx (p : PP_Cubic) : p.differentiate.idx = p.idx := rfl

lemma differentiate_knots (p : PP_Cubic) : p.differentiate.knots = p.knots := rfl

lemma kn_differentiate (p : PP_Cubic) (i : ℕ) :
    kn p.differentiate i = kn p i := rfl

lemma kn_lt (p : PP_Cubic) {m : ℕ} (hm : m < 5) : kn p m = p.knots ⟨m, hm⟩ := by
  unfold kn
  rw [dif_pos hm]

/-- Both operands of `__mod__` more than 3 indices apart: both call orders
return 0. -/
lemma prodIntegrate_far (p q : PP_Cubic) (h : 3 < (p.idx - q.idx).natAbs) :
    prodIntegrate p q = prodIntegrate q p := by
  unfold prodIntegrate
  rw [if_pos h, if_pos (by omega : 3 < (q.idx - p.idx).natAbs)]

/-- Symmetry of `__mod__` at index offset 0 over a common padded knot
sequence. -/
lemma prodIntegrate_comm_aux0 (pad : ℤ → ℚ) (p q : PP_Cubic)
    (hp : ∀ j : Fin 5, p.knots j = pad (p.idx + j.val))
    (hq : ∀ j : Fin 5, q.knots j = pad (q.idx + j.val))
    (he : q.idx = p.idx) :
    prodIntegrate p q = prodIntegrate q p := by
  have hp' : ∀ m : ℕ, m < 5 → kn p m = pad (p.idx + m) := fun m hm => by
    rw [kn_lt p hm]; exact hp ⟨m, hm⟩
  have hq' : ∀ m : ℕ, m < 5 → kn q m = pad (q.idx + m) := fun m hm => by
    rw [kn_lt q hm]; exact hq ⟨m, hm⟩
  have c1 : ¬ 3 < (p.idx - q.idx).natAbs := by omega
  have c2 : ¬ 3 < (q.idx - p.idx).natAbs := by omega
  have d1 : ¬ p.idx < q.idx := by omega
  have d2 : ¬ q.idx < p.idx := by omega
  have d3 : p.idx = q.idx := by omega
  have d4 : q.idx = p.idx := by omega
  have kp0 : kn p 0 = pad p.idx := by rw [hp' 0 (by norm_num)]; congr 1 <;> omega
  have kp1 : kn p 1 = pad (p.idx + 1) := by
    rw [hp' 1 (by norm_num)]; congr 1 <;> omega
  have kp2 : kn p 2 = pad (p.idx + 2) := by
    rw [hp' 2 (by norm_num)]; congr 1 <;> omega
  have kp3 : kn p 3 = pad (p.idx + 3) := by
    rw [hp' 3 (by norm_num)]; congr 1 <;> omega
  have kp4 : kn p 4 = pad (p.idx + 4) := by
    rw [hp' 4 (by norm_num)]; congr 1 <;> omega
  have kq0 : kn q 0 = pad p.idx := by rw [hq' 0 (by norm_num)]; congr 1 <;> omega
  have kq1 : kn q 1 = pad (p.idx + 1) := by
    rw [hq' 1 (by norm_num)]; congr 1 <;> omega
  have kq2 : kn q 2 = pad (p.idx + 2) := by
    rw [hq' 2 (by norm_num)]; congr 1 <;> omega
  have kq3 : kn q 3 = pad (p.idx + 3) := by
    rw [hq' 3 (by norm_num)]; congr 1 <;> omega
  have kq4 : kn q 4 = pad (p.idx + 4) := by
    rw [hq' 4 (by norm_num)]; congr 1 <;> omega
  simp only [prodIntegrate, prodRows, differentiate_idx, kn_differentiate,
    if_neg c1, if_neg c2, if_neg d1, if_neg d2, if_pos d3, if_pos d4,
    Finset.sum_range_succ, Finset.sum_range_zero]
  norm_num
  rw [kp0, kp1, kp2, kp3, kp4, kq0, kq1, kq2, kq3, kq4]
  simp [conv2, integRow]
  ring

/-- Symmetry of `__mod__` at index offset 1 over a common padded knot
sequence. -/
lemma prodIntegrate_comm_aux1 (pad : ℤ → ℚ) (p q : PP_Cubic)
    (hp : ∀ j : Fin 5, p.knots j = pad (p.idx + j.val))
    (hq : ∀ j : Fin 5, q.knots j = pad (q.idx + j.val))
    (he : q.idx = p.idx + 1) :
    prodIntegrate p q = prodIntegrate q p := by
  have hp' : ∀ m : ℕ, m < 5 → kn p m = pad (p.idx + m) := fun m hm => by
    rw [kn_lt p hm]; exact hp ⟨m, hm⟩
  have hq' : ∀ m : ℕ, m < 5 → kn q m = pad (q.idx + m) := fun m hm => by
    rw [kn_lt q hm]; exact hq ⟨m, hm⟩
  have c1 : ¬ 3 < (p.idx - q.idx).natAbs := by omega
  have c2 : ¬ 3 < (q.idx - p.idx).natAbs := by omega
  have t1 : (q.idx - p.idx).toNat = 1 := by omega
  have t2 : (p.idx - q.idx).toNat = 0 := by omega
  have d1 : p.idx < q.idx := by omega
  have d2 : ¬ q.idx < p.idx := by omega
  have d3 : ¬ q.idx = p.idx := by omega
  have kp0 : kn p 0 = pad p.idx := by rw [hp' 0 (by norm_num)]; congr 1 <;> omega
  have kp1 : kn p 1 = pad (p.idx + 1) := by
    rw [hp' 1 (by norm_num)]; congr 1 <;> omega
  have kp2 : kn p 2 = pad (p.idx + 2) := by
    rw [hp' 2 (by norm_num)]; congr 1 <;> omega
  have kp3 : kn p 3 = pad (p.idx + 3) := by
    rw [hp' 3 (by norm_num)]; congr 1 <;> omega
  have kp4 : kn p 4 = pad (p.idx + 4) := by
    rw [hp' 4 (by norm_num)]; congr 1 <;> omega
  have kq0 : kn q 0 = pad (p.idx + 1) := by
    rw [hq' 0 (by norm_num)]; congr 1 <;> omega
  have kq1 : kn q 1 = pad (p.idx + 2) := by
    rw [hq' 1 (by norm_num)]; congr 1 <;> omega
  have kq2 : kn q 2 = pad (p.idx + 3) := by
    rw [hq' 2 (by norm_num)]; congr 1 <;> omega
  have kq3 : kn q 3 = pad (p.idx + 4) := by
    rw [hq' 3 (by norm_num)]; congr 1 <;> omega
  have kq4 : kn q 4 = pad (p.idx + 5) := by
    rw [hq' 4 (by norm_num)]; congr 1 <;> omega
  simp only [prodIntegrate, prodRows, differentiate_idx, kn_differentiate, t1, t2,
    if_neg c1, if_neg c2, if_pos d1, if_neg d2, if_neg d3,
    Finset.sum_range_succ, Finset.sum_range_zero]
  norm_num
  rw [kp0, kp1, kp2, kp3, kp4, kq0, kq1, kq2, kq3, kq4]
  simp [conv2, integRow]
  ring

/-- Symmetry of `__mod__` at index offset 2 over a common padded knot
sequence. -/
lemma prodIntegrate_comm_aux2 (pad : ℤ → ℚ) (p q : PP_Cubic)
    (hp : ∀ j : Fin 5, p.knots j = pad (p.idx + j.val))
    (hq : ∀ j : Fin 5, q.knots j = pad (q.idx + j.val))
    (he : q.idx = p.idx + 2) :
    prodIntegrate p q = prodIntegrate q p := by
  have hp' : ∀ m : ℕ, m < 5 → kn p m = pad (p.idx + m) := fun m hm => by
    rw [kn_lt p hm]; exact hp ⟨m, hm⟩
  have hq' : ∀ m : ℕ, m < 5 → kn q m = pad (q.idx + m) := fun m hm => by
    rw [kn_lt q hm]; exact hq ⟨m, hm⟩
  have c1 : ¬ 3 < (p.idx - q.idx).natAbs := by omega
  have c2 : ¬ 3 < (q.idx - p.idx).natAbs := by omega
  have t1 : (q.idx - p.idx).toNat = 2 := by omega
  have t2 : (p.idx - q.idx).toNat = 0 := by omega
  have d1 : p.idx < q.idx := by omega
  have d2 : ¬ q.idx < p.idx := by omega
  have d3 : ¬ q.idx = p.idx := by omega
  have kp0 : kn p 0 = pad p.idx := by rw [hp' 0 (by norm_num)]; congr 1 <;> omega
  have kp1 : kn p 1 = pad (p.idx + 1) := by
    rw [hp' 1 (by norm_num)]; congr 1 <;> omega
  have kp2 : kn p 2 = pad (p.idx + 2) := by
    rw [hp' 2 (by norm_num)]; congr 1 <;> omega
  have kp3 : kn p 3 = pad (p.idx + 3) := by
    rw [hp' 3 (by norm_num)]; congr 1 <;> omega
  have kp4 : kn p 4 = pad (p.idx + 4) := by
    rw [hp' 4 (by norm_num)]; congr 1 <;> omega
  have kq0 : kn q 0 = pad (p.idx + 2) := by
    rw [hq' 0 (by norm_num)]; congr 1 <;> omega
  have kq1 : kn q 1 = pad (p.idx + 3) := by
    rw [hq' 1 (by norm_num)]; congr 1 <;> omega
  have kq2 : kn q 2 = pad (p.idx + 4) := by
    rw [hq' 2 (by norm_num)]; congr 1 <;> omega
  have kq3 : kn q 3 = pad (p.idx + 5) := by
    rw [hq' 3 (by norm_num)]; congr 1 <;> omega
  have kq4 : kn q 4 = pad (p.idx + 6) := by
    rw [hq' 4 (by norm_num)]; congr 1 <;> omega
  simp only [prodIntegrate, prodRows, differentiate_idx, kn_differentiate, t1, t2,
    if_neg c1, if_neg c2, if_pos d1, if_neg d2, if_neg d3,
    Finset.sum_range_succ, Finset.sum_range_zero]
  norm_num
  rw [kp0, kp1, kp2, kp3, kp4, kq0, kq1, kq2, kq3, kq4]
  simp [conv2, integRow]
  ring

/-- Symmetry of `__mod__` at index offset 3 over a common padded knot
sequence. -/
lemma prodIntegrate_comm_aux3 (pad : ℤ → ℚ) (p q : PP_Cubic)
    (hp : ∀ j : Fin 5, p.knots j = pad (p.idx + j.val))
    (hq : ∀ j : Fin 5, q.knots j = pad (q.idx + j.val))
    (he : q.idx = p.idx + 3) :
    prodIntegrate p q = prodIntegrate q p := by
  have hp' : ∀ m : ℕ, m < 5 → kn p m = pad (p.idx + m) := fun m hm => by
    rw [kn_lt p hm]; exact hp ⟨m, hm⟩
  have hq' : ∀ m : ℕ, m < 5 → kn q m = pad (q.idx + m) := fun m hm => by
    rw [kn_lt q hm]; exact hq ⟨m, hm⟩
  have c1 : ¬ 3 < (p.idx - q.idx).natAbs := by omega
  have c2 : ¬ 3 < (q.idx - p.idx).natAbs := by omega
  have t1 : (q.idx - p.idx).toNat = 3 := by omega
  have t2 : (p.idx - q.idx).toNat = 0 := by omega
  have d1 : p.idx < q.idx := by omega
  have d2 : ¬ q.idx < p.idx := by omega
  have d3 : ¬ q.idx = p.idx := by omega
  have kp0 : kn p 0 = pad p.idx := by rw [hp' 0 (by norm_num)]; congr 1 <;> omega
  have kp1 : kn p 1 = pad (p.idx + 1) := by
    rw [hp' 1 (by norm_num)]; congr 1 <;> omega
  have kp2 : kn p 2 = pad (p.idx + 2) := by
    rw [hp' 2 (by norm_num)]; congr 1 <;> omega
  have kp3 : kn p 3 = pad (p.idx + 3) := by
    rw [hp' 3 (by norm_num)]; congr 1 <;> omega
  have kp4 : kn p 4 = pad (p.idx + 4) := by
    rw [hp' 4 (by norm_num)]; congr 1 <;> omega
  have kq0 : kn q 0 = pad (p.idx + 3) := by
    rw [hq' 0 (by norm_num)]; congr 1 <;> omega
  have kq1 : kn q 1 = pad (p.idx + 4) := by
    rw [hq' 1 (by norm_num)]; congr 1 <;> omega
  have kq2 : kn q 2 = pad (p.idx + 5) := by
    rw [hq' 2 (by norm_num)]; congr 1 <;> omega
  have kq3 : kn q 3 = pad (p.idx + 6) := by
    rw [hq' 3 (by norm_num)]; congr 1 <;> omega
  have kq4 : kn q 4 = pad (p.idx + 7) := by
    rw [hq' 4 (by norm_num)]; congr 1 <;> omega
  simp only [prodIntegrate, prodRows, differentiate_idx, kn_differentiate, t1, t2,
    if_neg c1, if_neg c2, if_pos d1, if_neg d2, if_neg d3,
    Finset.sum_range_succ, Finset.sum_range_zero]
  norm_num
  rw [kp0, kp1, kp2, kp3, kp4, kq0, kq1, kq2, kq3, kq4]
  simp [conv2, integRow]
  ring

/-- Commutativity of `__mod__` for any two piecewise polynomials whose knot
windows are drawn from one common padded knot sequence at their respective
indices. -/
lemma prodIntegrate_comm_of_pad (pad : ℤ → ℚ) (p q : PP_Cubic)
    (hp : ∀ j : Fin 5, p.knots j = pad (p.idx + j.val))
    (hq : ∀ j : Fin 5, q.knots j = pad (q.idx + j.val)) :
    prodIntegrate p q = prodIntegrate q p := by
  rcases le_total p.idx q.idx with hle | hle
  · by_cases hfar : 3 < (p.idx - q.idx).natAbs
    · exact prodIntegrate_far p q hfar
    · rcases (by omega :
          q.idx = p.idx ∨ q.idx = p.idx + 1 ∨ q.idx = p.idx + 2 ∨
            q.idx = p.idx + 3) with h | h | h | h
      · exact prodIntegrate_comm_aux0 pad p q hp hq h
      · exact prodIntegrate_comm_aux1 pad p q hp hq h
      · exact prodIntegrate_comm_aux2 pad p q hp hq h
      · exact prodIntegrate_comm_aux3 pad p q hp hq h
  · by_cases hfar : 3 < (q.idx - p.idx).natAbs
    · exact (prodIntegrate_far q p hfar).symm
    · rcases (by omega :
          p.idx = q.idx ∨ p.idx = q.idx + 1 ∨ p.idx = q.idx + 2 ∨
            p.idx = q.idx + 3) with h | h | h | h
      · exact (prodIntegrate_comm_aux0 pad q p hq hp h).symm
      · exact (prodIntegrate_comm_aux1 pad q p hq hp h).symm
      · exact (prodIntegrate_comm_aux2 pad q p hq hp h).symm
      · exact (prodIntegrate_comm_aux3 pad q p hq hp h).symm

lemma get_BSbasis_length (data : List ℚ) :
    (get_BSbasis data).length = data.length - 2 + 4 := by
  simp [get_BSbasis]

lemma get_BSbasis_getD (data : List ℚ) (i : ℕ) (d : PP_Cubic)
    (hi : i < (get_BSbasis data).length) :
    (get_BSbasis data).getD i d =
      { idx := (i : ℤ)
        knots := fun j => (pad3 data).getD (i + j.val) 0
        coefs := deriveCoefs fun j => (pad3 data).getD (i + j.val) 0 } := by
  rw [List.getD_eq_getElem _ _ hi]
  rw [get_BSbasis_length] at hi
  simp [get_BSbasis]

lemma getD_map_of_lt {α β : Type*} (f : α → β) (B : List α) (i : ℕ)
    (hi : i < B.length) (d : β) (d' : α) :
    (B.map f).getD i d = f (B.getD i d') := by
  rw [List.getD_eq_getElem _ _ (by simpa using hi),
    List.getD_eq_getElem _ _ hi, List.getElem_map]

lemma entry_penalty (B : List PP_Cubic) (i j : ℕ)
    (hi : i < B.length) (hj : j < B.length) :
    entry (get_penalty_matrix B) i j =
      prodIntegrate (B.getD i PP0) (B.getD j PP0) := by
  unfold entry get_penalty_matrix
  rw [getD_map_of_lt _ B i hi _ PP0, getD_map_of_lt _ B j hj _ PP0]

/-- Every element of `get_BSbasis data` takes its knot window from the one
common padded sequence at its own index. -/
lemma get_BSbasis_knots_pad (data : List ℚ) (i : ℕ)
    (hi : i < (get_BSbasis data).length) (j : Fin 5) :
    ((get_BSbasis data).getD i PP0).knots j =
      (fun z : ℤ => (pad3 data).getD z.toNat 0)
        (((get_BSbasis data).getD i PP0).idx + j.val) := by
  rw [get_BSbasis_getD data i PP0 hi]
  show (pad3 data).getD (i + j.val) 0 =
    (pad3 data).getD (((i : ℤ) + (j.val : ℤ)).toNat) 0
  congr 1 <;> omega

/-- C1: `Product-Integrate` is commutative on every pair of piecewise
polynomials built by basis construction over the same data, i.e. whose knot
windows are drawn from one common padded knot sequence at their respective
indices (even though `__mod__` takes a different branch depending on the
sign of `idx(f) - idx(g)`); consequently the penalty matrix of every
constructed basis is symmetric: `PenaltyMatrix(basis)[i][j] ==
PenaltyMatrix(basis)[j][i]` for all in-range `i`, `j`. -/
theorem prodIntegrate_comm_penalty_symm :
    (∀ (pad : ℤ → ℚ) (p q : PP_Cubic),
        (∀ j : Fin 5, p.knots j = pad (p.idx + j.val)) →
        (∀ j : Fin 5, q.knots j = pad (q.idx + j.val)) →
        prodIntegrate p q = prodIntegrate q p) ∧
    ∀ (data : List ℚ) (i j : ℕ),
      i < (get_BSbasis data).length → j < (get_BSbasis data).length →
      entry (get_penalty_matrix (get_BSbasis data)) i j =
        entry (get_penalty_matrix (get_BSbasis data)) j i := by
  refine ⟨prodIntegrate_comm_of_pad, fun data i j hi hj => ?_⟩
  rw [entry_penalty _ _ _ hi hj, entry_penalty _ _ _ hj hi]
  exact prodIntegrate_comm_of_pad (fun z : ℤ => (pad3 data).getD z.toNat 0)
    _ _ (get_BSbasis_knots_pad data i hi) (get_BSbasis_knots_pad data j hj)

/-- Witness for C1: the commutativity theorem applied to two concrete
basis-like polynomials over the integer knot grid, and the penalty-matrix
symmetry applied to a concrete basis and concrete indices. -/
theorem prodIntegrate_comm_penalty_symm_w :
    prodIntegrate (samplePP 0) (samplePP 2) =
      prodIntegrate (samplePP 2) (samplePP 0) ∧
    entry (get_penalty_matrix (get_BSbasis [0, 1, 2, 3])) 1 3 =
      entry (get_penalty_matrix (get_BSbasis [0, 1, 2, 3])) 3 1 :=
  ⟨prodIntegrate_comm_penalty_symm.1 (fun z => ((z : ℤ) : ℚ)) (samplePP 0)
      (samplePP 2) (fun j => by simp [samplePP]) (fun j => by simp [samplePP]),
   prodIntegrate_comm_penalty_symm.2 [0, 1, 2, 3] 1 3 (by decide) (by decide)⟩

/-- C2: when the index distance exceeds 3 the supports cannot overlap and
`__mod__` returns exactly `0` through its first branch, before any
differentiation, convolution or integration; consequently the penalty
matrix of every constructed basis is banded with bandwidth 3:
`PenaltyMatrix(basis)[i][j] == 0` whenever `|i - j| > 3`. -/
theorem prodIntegrate_band_zero :
    (∀ p q : PP_Cubic, 3 < (p.idx - q.idx).natAbs → prodIntegrate p q = 0) ∧
    ∀ (data : List ℚ) (i j : ℕ),
      i < (get_BSbasis data).length → j < (get_BSbasis data).length →
      3 < ((i : ℤ) - (j : ℤ)).natAbs →
      entry (get_penalty_matrix (get_BSbasis data)) i j = 0 := by
  have h0 : ∀ p q : PP_Cubic, 3 < (p.idx - q.idx).natAbs →
      prodIntegrate p q = 0 := by
    intro p q h
    unfold prodIntegrate
    rw [if_pos h]
  refine ⟨h0, fun data i j hi hj hband => ?_⟩
  rw [entry_penalty _ _ _ hi hj]
  apply h0
  rw [get_BSbasis_getD data i PP0 hi, get_BSbasis_getD data j PP0 hj]
  exact hband

/-- Witness for C2: the early-exit zero applied at a concrete pair with
index distance 4, and a concrete out-of-band penalty entry. -/
theorem prodIntegrate_band_zero_w :
    prodIntegrate (samplePP 0) (samplePP 4) = 0 ∧
    entry (get_penalty_matrix (get_BSbasis [0, 1, 2, 3, 4, 5])) 0 7 = 0 :=
  ⟨prodIntegrate_band_zero.1 (samplePP 0) (samplePP 4) (by decide),
   prodIntegrate_band_zero.2 [0, 1, 2, 3, 4, 5] 0 7 (by decide) (by decide)
     (by decide)⟩

lemma coef_fin (p : PP_Cubic) {i : ℕ} (hi : i < 4) (k : Fin 4) :
    coef p i k.val = p.coefs ⟨i, hi⟩ k := by
  unfold coef
  rw [dif_pos ⟨hi, k.isLt⟩]

/-- C3: evaluation returns one value per input point; a point outside
`[knots[0], knots[4]]` yields exactly 0; a point inside yields the value of
the coefficient row of an interval containing it, evaluated as a degree-3
polynomial in `(x - interval_start)`. -/
theorem eval_PP_spec :
    ∀ p : PP_Cubic, p.valid →
      (∀ xs : List ℚ, (PP_call p xs).length = xs.length) ∧
      (∀ x : ℚ, x < p.knots 0 ∨ p.knots 4 < x → eval_PP p x = 0) ∧
      (∀ x : ℚ, p.knots 0 ≤ x → x ≤ p.knots 4 →
        ∃ r : Fin 4, p.knots r.castSucc ≤ x ∧ x ≤ p.knots r.succ ∧
          eval_PP p x =
            ∑ k : Fin 4,
              p.coefs r k * (x - p.knots r.castSucc) ^ (3 - k.val)) := by
  intro p hv
  refine ⟨fun xs => by simp [PP_call], fun x hx => ?_, fun x h0 h4 => ?_⟩
  · have hout : ¬(kn p 0 ≤ x ∧ x ≤ kn p 4) := by
      rw [kn_lt p (by norm_num : (0:ℕ) < 5), kn_lt p (by norm_num : (4:ℕ) < 5)]
      rcases hx with h | h
      · exact fun hc => absurd hc.1 (not_le.2 h)
      · exact fun hc => absurd hc.2 (not_le.2 h)
    unfold eval_PP
    rw [if_pos hout]
  · have h04 : kn p 0 ≤ x ∧ x ≤ kn p 4 := ⟨h0, h4⟩
    by_cases hb1 : kn p 0 ≤ x ∧ x ≤ kn p 1
    · refine ⟨0, hb1.1, hb1.2, ?_⟩
      unfold eval_PP
      rw [if_neg (not_not_intro h04), if_pos hb1]
      exact Finset.sum_congr rfl fun k _ => by
        rw [coef_fin p (by norm_num : (0:ℕ) < 4) k]
        rfl
    · by_cases hb2 : kn p 1 ≤ x ∧ x ≤ kn p 2
      · refine ⟨1, hb2.1, hb2.2, ?_⟩
        unfold eval_PP
        rw [if_neg (not_not_intro h04), if_neg hb1, if_pos hb2]
        exact Finset.sum_congr rfl fun k _ => by
          rw [coef_fin p (by norm_num : (1:ℕ) < 4) k]
          rfl
      · have hx1 : p.knots 1 < x := by
          push_neg at hb1
          exact hb1 h0
        have hx2 : p.knots 2 < x := by
          push_neg at hb2
          exact hb2 (le_of_lt hx1)
        by_cases hx3 : x < p.knots 3
        · have hx4 : x < p.knots 4 := lt_of_lt_of_le hx3 (hv 3)
          have hc :
              (Finset.univ.filter fun j : Fin 5 => p.knots j ≤ x).card = 3 := by
            rw [Finset.card_filter, Fin.sum_univ_five]
            rw [if_pos h0, if_pos (le_of_lt hx1), if_pos (le_of_lt hx2),
              if_neg (not_le.2 hx3), if_neg (not_le.2 hx4)]
          refine ⟨2, le_of_lt hx2, le_of_lt hx3, ?_⟩
          unfold eval_PP
          rw [if_neg (not_not_intro h04), if_neg hb1, if_neg hb2]
          show (∑ k : Fin 4,
              coef p (min 3 ((Finset.univ.filter
                fun j : Fin 5 => p.knots j ≤ x).card - 1)) k.val *
                (x - kn p (min 3 ((Finset.univ.filter
                  fun j : Fin 5 => p.knots j ≤ x).card - 1))) ^ (3 - k.val)) = _
          rw [hc]
          exact Finset.sum_congr rfl fun k _ => by
            rw [show min 3 (3 - 1) = 2 from rfl,
              coef_fin p (by norm_num : (2:ℕ) < 4) k]
            rfl
        · push_neg at hx3
          have hc4 :
              4 ≤ (Finset.univ.filter fun j : Fin 5 => p.knots j ≤ x).card := by
            have hsub : ({0, 1, 2, 3} : Finset (Fin 5)) ⊆
                Finset.univ.filter fun j : Fin 5 => p.knots j ≤ x := by
              intro j hj
              simp only [Finset.mem_insert, Finset.mem_singleton] at hj
              rw [Finset.mem_filter]
              refine ⟨Finset.mem_univ j, ?_⟩
              rcases hj with rfl | rfl | rfl | rfl
              · exact h0
              · exact le_of_lt hx1
              · exact le_of_lt hx2
              · exact hx3
            calc (4 : ℕ) = ({0, 1, 2, 3} : Finset (Fin 5)).card := by decide
              _ ≤ _ := Finset.card_le_card hsub
          have hc5 :
              (Finset.univ.filter fun j : Fin 5 => p.knots j ≤ x).card ≤ 5 := by
            calc (Finset.univ.filter fun j : Fin 5 => p.knots j ≤ x).card
                ≤ (Finset.univ : Finset (Fin 5)).card :=
                  Finset.card_le_card (Finset.filter_subset _ _)
              _ = 5 := by decide
          have hmin :
              min 3 ((Finset.univ.filter
                fun j : Fin 5 => p.knots j ≤ x).card - 1) = 3 := by omega
          refine ⟨3, hx3, h4, ?_⟩
          unfold eval_PP
          rw [if_neg (not_not_intro h04), if_neg hb1, if_neg hb2]
          show (∑ k : Fin 4,
              coef p (min 3 ((Finset.univ.filter
                fun j : Fin 5 => p.knots j ≤ x).card - 1)) k.val *
                (x - kn p (min 3 ((Finset.univ.filter
                  fun j : Fin 5 => p.knots j ≤ x).card - 1))) ^ (3 - k.val)) = _
          rw [hmin]
          exact Finset.sum_congr rfl fun k _ => by
            rw [coef_fin p (by norm_num : (3:ℕ) < 4) k]
            rfl

/-- Witness for C3: the evaluation specification applied to a concrete
valid basis-like polynomial, instantiated at concrete points in each
region. -/
theorem eval_PP_spec_w :
    (samplePP 0).valid ∧
    (PP_call (samplePP 0) [0, 1, 2]).length = 3 ∧
    eval_PP (samplePP 0) 17 = 0 ∧
    ∃ r : Fin 4, (samplePP 0).knots r.castSucc ≤ 3 ∧
      3 ≤ (samplePP 0).knots r.succ ∧
      eval_PP (samplePP 0) 3 =
        ∑ k : Fin 4,
          (samplePP 0).coefs r k *
            ((3 : ℚ) - (samplePP 0).knots r.castSucc) ^ (3 - k.val) :=
  ⟨by decide,
   (eval_PP_spec (samplePP 0) (by decide)).1 [0, 1, 2],
   (eval_PP_spec (samplePP 0) (by decide)).2.1 17 (Or.inr (by decide)),
   (eval_PP_spec (samplePP 0) (by decide)).2.2 3 (by decide) (by decide)⟩

lemma differentiate_coefs_mk0 (p : PP_Cubic) (i : Fin 4) (h : (0:ℕ) < 4) :
    p.differentiate.coefs i ⟨0, h⟩ = 0 := rfl

lemma fourth_deriv_coefs_zero (p : PP_Cubic) (i k : Fin 4) :
    p.differentiate.differentiate.differentiate.differentiate.coefs i k = 0 := by
  fin_cases k
  · rfl
  · show (3 : ℚ) * _ = 0
    rw [differentiate_coefs_mk0, mul_zero]
  · show (2 : ℚ) * ((3 : ℚ) * _) = 0
    rw [differentiate_coefs_mk0]
    ring
  · show (1 : ℚ) * ((2 : ℚ) * ((3 : ℚ) * _)) = 0
    rw [differentiate_coefs_mk0]
    ring

lemma eval_PP_zero_coefs (p : PP_Cubic)
    (hz : ∀ i k : Fin 4, p.coefs i k = 0) (x : ℚ) : eval_PP p x = 0 := by
  have hc : ∀ i k : ℕ, coef p i k = 0 := by
    intro i k
    unfold coef
    split
    · exact hz _ _
    · rfl
  unfold eval_PP
  split_ifs <;> simp [hc]

/-- C5: `differentiate` returns a new object with the same knots and index
whose coefficient rows are the descending-order derivatives of the
receiver's rows (row `[a, b, c, d]` becomes `[0, 3a, 2b, c]`); the receiver
is untouched (the embedding is purely functional and the result is a fresh
structure, so this is expressed by the result's fields being determined by
the unchanged input fields).  After two applications the two leading
coefficient columns are zero in every row, and four applications produce a
function evaluating to 0 at every point. -/
theorem differentiate_spec :
    ∀ p : PP_Cubic,
      (p.differentiate.knots = p.knots ∧ p.differentiate.idx = p.idx) ∧
      (∀ i : Fin 4, p.differentiate.coefs i 0 = 0 ∧
        ∀ k : Fin 3, p.differentiate.coefs i k.succ =
          ((3 - k.val : ℕ) : ℚ) * p.coefs i k.castSucc) ∧
      (∀ (i : Fin 4) (x : ℚ),
        (∑ k : Fin 4, p.differentiate.coefs i k * x ^ (3 - k.val)) =
          3 * p.coefs i 0 * x ^ 2 + 2 * p.coefs i 1 * x + p.coefs i 2) ∧
      (∀ i : Fin 4, p.differentiate.differentiate.coefs i 0 = 0 ∧
        p.differentiate.differentiate.coefs i 1 = 0) ∧
      ∀ x : ℚ,
        eval_PP p.differentiate.differentiate.differentiate.differentiate x =
          0 := by
  intro p
  refine ⟨⟨rfl, rfl⟩, fun i => ⟨rfl, fun k => ?_⟩, fun i x => ?_,
    fun i => ⟨rfl, ?_⟩,
    fun x => eval_PP_zero_coefs _ (fourth_deriv_coefs_zero p) x⟩
  · fin_cases k <;> rfl
  · rw [Fin.sum_univ_four]
    rw [show p.differentiate.coefs i 0 = 0 from rfl,
      show p.differentiate.coefs i 1 = 3 * p.coefs i 0 from rfl,
      show p.differentiate.coefs i 2 = 2 * p.coefs i 1 from rfl,
      show p.differentiate.coefs i 3 = 1 * p.coefs i 2 from rfl]
    norm_num [show ((3 : Fin 4) : ℕ) = 3 from rfl]
  · show (3 : ℚ) * _ = 0
    rw [differentiate_coefs_mk0, mul_zero]

/-- C10: the invariants enforced by the validating constructor are
preserved by `differentiate`: the result (and hence the second derivative
formed inside `__mod__`) has the same length-5 non-decreasing knot vector,
the same index, and (by the type of `coefs`) a 4×4 coefficient table. -/
theorem differentiate_preserves_invariants :
    ∀ p : PP_Cubic, p.valid →
      (p.differentiate.valid ∧ p.differentiate.knots = p.knots ∧
        p.differentiate.idx = p.idx) ∧
      (p.differentiate.differentiate.valid ∧
        p.differentiate.differentiate.knots = p.knots ∧
        p.differentiate.differentiate.idx = p.idx) :=
  fun _ hv => ⟨⟨hv, rfl, rfl⟩, ⟨hv, rfl, rfl⟩⟩

/-- Witness for C10: invariant preservation applied to a concrete valid
polynomial. -/
theorem differentiate_preserves_invariants_w :
    (samplePP 1).valid ∧ (samplePP 1).differentiate.valid ∧
    (samplePP 1).differentiate.differentiate.valid :=
  ⟨by decide,
   (differentiate_preserves_invariants (samplePP 1) (by decide)).1.1,
   (differentiate_preserves_invariants (samplePP 1) (by decide)).2.1⟩

/-- C7: the constructor fails exactly on a knot list that does not have 5
entries, is not sorted ascending (adjacent non-decreasing), or a
coefficient table that is not 4×4; on success the stored fields equal the
arguments. -/
theorem construct_spec :
    (∀ (idx : ℤ) (knots : List ℚ) (coefs : List (List ℚ)),
        ¬(knots.length = 5 ∧ List.Chain' (· ≤ ·) knots ∧
          coefs.length = 4 ∧ ∀ r ∈ coefs, r.length = 4) →
        PP_Cubic.construct idx knots coefs = none) ∧
    ∀ (idx : ℤ) (knots : List ℚ) (coefs : List (List ℚ)),
      knots.length = 5 → List.Chain' (· ≤ ·) knots →
      coefs.length = 4 → (∀ r ∈ coefs, r.length = 4) →
      ∃ p : PP_Cubic, PP_Cubic.construct idx knots coefs = some p ∧
        p.idx = idx ∧ (∀ j : Fin 5, p.knots j = knots.getD j.val 0) ∧
        ∀ i k : Fin 4, p.coefs i k = (coefs.getD i.val []).getD k.val 0 := by
  constructor
  · intro idx knots coefs h
    unfold PP_Cubic.construct
    rw [dif_neg h]
  · intro idx knots coefs h1 h2 h3 h4
    refine ⟨{ idx := idx
              knots := fun j => knots.getD j.val 0
              coefs := fun i k => (coefs.getD i.val []).getD k.val 0 },
      ?_, rfl, fun j => rfl, fun i k => rfl⟩
    unfold PP_Cubic.construct
    rw [dif_pos ⟨h1, h2, h3, h4⟩]

/-- Witness for C7: a concrete rejected knot list and a concrete accepted
construction whose fields are recovered. -/
theorem construct_spec_w :
    PP_Cubic.construct 0 [0, 1, 2] [] = none ∧
    ∃ p : PP_Cubic,
      PP_Cubic.construct 5 [0, 1, 1, 2, 3]
          [[1, 2, 3, 4], [5, 6, 7, 8], [9, 10, 11, 12], [13, 14, 15, 16]] =
        some p ∧
      p.idx = 5 ∧
      (∀ j : Fin 5, p.knots j = ([0, 1, 1, 2, 3] : List ℚ).getD j.val 0) ∧
      ∀ i k : Fin 4, p.coefs i k =
        (([[1, 2, 3, 4], [5, 6, 7, 8], [9, 10, 11, 12], [13, 14, 15, 16]] :
          List (List ℚ)).getD i.val []).getD k.val 0 :=
  ⟨construct_spec.1 0 [0, 1, 2] [] (by decide),
   construct_spec.2 5 [0, 1, 1, 2, 3]
     [[1, 2, 3, 4], [5, 6, 7, 8], [9, 10, 11, 12], [13, 14, 15, 16]]
     (by decide) (by norm_num [List.chain'_cons]) (by decide) (by decide)⟩

/-- C9: the value and derivative matrices have shape
`(len(points), len(basis))`, the penalty matrix has shape
`(len(basis), len(basis))`, and the derivative matrix is exactly the value
matrix of the once-differentiated basis. -/
theorem matrix_shapes :
    ∀ (data : List ℚ) (basis : List PP_Cubic),
      (get_basis_matrix data basis).length = data.length ∧
      (∀ row ∈ get_basis_matrix data basis, row.length = basis.length) ∧
      (get_deriv_matrix data basis).length = data.length ∧
      (∀ row ∈ get_deriv_matrix data basis, row.length = basis.length) ∧
      (get_penalty_matrix basis).length = basis.length ∧
      (∀ row ∈ get_penalty_matrix basis, row.length = basis.length) ∧
      get_deriv_matrix data basis =
        get_basis_matrix data (basis.map PP_Cubic.differentiate) := by
  intro data basis
  refine ⟨by simp [get_basis_matrix], fun row hrow => ?_,
    by simp [get_deriv_matrix], fun row hrow => ?_,
    by simp [get_penalty_matrix], fun row hrow => ?_, rfl⟩
  · unfold get_basis_matrix at hrow
    obtain ⟨x, _, rfl⟩ := List.mem_map.1 hrow
    simp
  · unfold get_deriv_matrix at hrow
    obtain ⟨x, _, rfl⟩ := List.mem_map.1 hrow
    simp
  · unfold get_penalty_matrix at hrow
    obtain ⟨x, _, rfl⟩ := List.mem_map.1 hrow
    simp

/-- Witness for C9: the row-length part applied to a concrete first row of
a concrete value matrix. -/
theorem matrix_shapes_w :
    ([eval_PP (samplePP 0) 0] : List ℚ).length = 1 :=
  (matrix_shapes [0, 1] [samplePP 0]).2.1 [eval_PP (samplePP 0) 0]
    (List.mem_map_of_mem _ (by norm_num))

/-- C4: `get_BSbasis` pads the data by repeating the first value 3 times
and the last value 3 times (`N+6` padded knots) and returns exactly `N+2`
piecewise polynomials, the `i`-th having index `i` and knots equal to the
padded window `padded[i:i+5]`; the 11-point input `[0,...,10]` yields
exactly 13 basis functions. -/
theorem get_BSbasis_spec :
    ∀ data : List ℚ, 2 ≤ data.length → List.Chain' (· ≤ ·) data →
      (pad3 data).length = data.length + 6 ∧
      (get_BSbasis data).length = data.length + 2 ∧
      (∀ i : ℕ, i < (get_BSbasis data).length →
        ((get_BSbasis data).getD i PP0).idx = i ∧
        ∀ j : Fin 5, ((get_BSbasis data).getD i PP0).knots j =
          (pad3 data).getD (i + j.val) 0) ∧
      (get_BSbasis ([0, 1, 2, 3, 4, 5, 6, 7, 8, 9, 10] : List ℚ)).length =
        13 := by
  intro data h2 _
  refine ⟨?_, ?_, fun i hi => ?_, by simp [get_BSbasis]⟩
  · simp [pad3]
  · rw [get_BSbasis_length]
    omega
  · rw [get_BSbasis_getD data i PP0 hi]
    exact ⟨rfl, fun j => rfl⟩

/-- Witness for C4: the basis-count and per-element facts at the concrete
11-point input. -/
theorem get_BSbasis_spec_w :
    (get_BSbasis ([0, 1, 2, 3, 4, 5, 6, 7, 8, 9, 10] : List ℚ)).length =
      13 ∧
    ((get_BSbasis ([0, 1, 2, 3, 4, 5, 6, 7, 8, 9, 10] : List ℚ)).getD 5
        PP0).idx = 5 :=
  ⟨(get_BSbasis_spec [0, 1, 2, 3, 4, 5, 6, 7, 8, 9, 10] (by decide)
      (by norm_num [List.chain'_cons])).2.2.2,
   ((get_BSbasis_spec [0, 1, 2, 3, 4, 5, 6, 7, 8, 9, 10] (by decide)
      (by norm_num [List.chain'_cons])).2.2.1 5 (by decide)).1⟩

/-- C6: on the pathological repeated-value input `[0,0,0,1,1,1]` the basis
construction succeeds (8 = 6-2+4 basis functions) and every basis function
evaluates to well-defined finite values — computed here exactly: the value
table on the sample grid `[0, 1/4, 1/2, 3/4, 1]`, the partition of unity at
the interior point `1/2`, and a penalty integral across the degenerate
intervals.  In this exact-arithmetic embedding no division by a zero-length
interval occurs anywhere: evaluation and integration divide only by the
constants 2, 3, 4, and the spec-modelled derivation (`coxDB`) drops
zero-denominator terms, which is how the claim's "zero contributions from
degenerate intervals" materialise. -/
theorem pathological_input_ok :
    (get_BSbasis pathData).length = 8 ∧
    ((get_BSbasis pathData).map fun b => eval_PP b (1 / 2)).sum = 1 ∧
    ((get_BSbasis pathData).map fun b =>
        PP_call b [0, 1 / 4, 1 / 2, 3 / 4, 1]) =
      [[0, 0, 0, 0, 0],
       [0, 0, 0, 0, 0],
       [0, 27 / 64, 1 / 8, 1 / 64, 0],
       [0, 27 / 64, 3 / 8, 9 / 64, 0],
       [0, 9 / 64, 3 / 8, 27 / 64, 0],
       [0, 1 / 64, 1 / 8, 27 / 64, 1],
       [0, 0, 0, 0, 0],
       [0, 0, 0, 0, 0]] ∧
    prodIntegrate ((get_BSbasis pathData).getD 3 PP0)
        ((get_BSbasis pathData).getD 4 PP0) = -18 ∧
    prodIntegrate ((get_BSbasis pathData).getD 4 PP0)
        ((get_BSbasis pathData).getD 3 PP0) = -18 := by
  refine ⟨by with_unfolding_all rfl, by with_unfolding_all rfl,
    by with_unfolding_all rfl, by with_unfolding_all rfl,
    by with_unfolding_all rfl⟩

/-- C8 counterexample: the claim "get_BSbasis fails with a validation error
whenever its input is not a 1-D numeric sequence" is false at the concrete
input `np.array([[0, 1], [2, 3]])`: a 2-D numpy array is not a 1-D numeric
sequence, yet the only validation the function performs
(`assert(type(data) == np.ndarray)`, line 132) passes on it. -/
theorem get_BSbasis_validate_cex :
    (PyInput.ndarray2 [[0, 1], [2, 3]]).is1D = false ∧
    get_BSbasis_validate (PyInput.ndarray2 [[0, 1], [2, 3]]) = true :=
  ⟨rfl, rfl⟩

/-- C8 (amended): the validation error of `get_BSbasis` fires exactly when
the input is not a numpy ndarray; dimensionality is not validated — a 2-D
ndarray passes the assert (it is only rejected later, inside the downstream
spline library, not by the function's validation), while a plain Python
list is rejected even when it is a 1-D numeric sequence. -/
theorem get_BSbasis_validate_spec :
    ∀ v : PyInput,
      (get_BSbasis_validate v = false ↔ v.isNdarray = false) := by
  intro v
  cases v <;> simp [get_BSbasis_validate, PyInput.isNdarray]


